import Mathlib

/-!
Verification of the anystore key-mapping and store layer.

Strings are modelled as lists of characters (`Str`).  Python string
primitives used by the source (`str.strip`, `str.rstrip("/")`,
`urllib.parse.unquote`, `str.split`, `"/".join`, `in`, `startswith`,
slicing) are given executable models below; `unquote` is modelled for
ASCII percent-escapes, which is exact on every input considered here.
-/

deriving instance DecidableEq for Except

namespace Anystore

abbrev Str := List Char

/-- Python whitespace characters (ASCII subset of `str.strip`). -/
def isPySpace (c : Char) : Bool :=
  c = ' ' || c = '\t' || c = '\n' || c = '\r' || c = '\x0b' || c = '\x0c'

/-- `s.rstrip(cs)` for a character class: drop matching chars from the end. -/
def rstripAll (p : Char → Bool) (s : Str) : Str :=
  (s.reverse.dropWhile p).reverse

/-- Python `s.strip()` (whitespace at both ends). -/
def pyStrip (s : Str) : Str :=
  (rstripAll isPySpace s).dropWhile isPySpace

/-- Python `s.lstrip("/")`. -/
def lstripSlash (s : Str) : Str := s.dropWhile (fun c => c = '/')

/-- Python `s.rstrip("/")`. -/
def rstripSlash (s : Str) : Str := rstripAll (fun c => c = '/') s

/-- Python `s.strip("/")`. -/
def stripSlash (s : Str) : Str := lstripSlash (rstripSlash s)

/-- Python substring test `n in s`. -/
def hasSubstr (n : Str) : Str → Bool
  | [] => n.isEmpty
  | c :: t => n.isPrefixOf (c :: t) || hasSubstr n t

/-- The forbidden traversal marker `"../"`. -/
def tra : Str := ['.', '.', '/']

/-- Value of a hexadecimal digit, if any. -/
def hexVal (c : Char) : Option Nat :=
  if '0' ≤ c ∧ c ≤ '9' then some (c.toNat - '0'.toNat)
  else if 'a' ≤ c ∧ c ≤ 'f' then some (c.toNat - 'a'.toNat + 10)
  else if 'A' ≤ c ∧ c ≤ 'F' then some (c.toNat - 'A'.toNat + 10)
  else none

/-- Python `urllib.parse.unquote`, modelled for ASCII percent-escapes:
a `%` followed by two hex digits decodes to that character, any other `%`
is kept literally and scanning continues after it. -/
def unquote : Str → Str
  | [] => []
  | [c] => [c]
  | [c, d] => [c, d]
  | c :: a :: b :: t =>
    if c = '%' then
      match hexVal a, hexVal b with
      | some x, some y => Char.ofNat (16 * x + y) :: unquote t
      | _, _ => '%' :: unquote (a :: b :: t)
    else c :: unquote (a :: b :: t)

/-- Python `s.split(sep)` (keeps empty segments; `"".split` is `[""]`). -/
def splitOnChar (sep : Char) : Str → List Str
  | [] => [[]]
  | c :: t =>
    if c = sep then [] :: splitOnChar sep t
    else
      match splitOnChar sep t with
      | [] => [[c]]
      | s :: ss => (c :: s) :: ss

/-- Python `sep.join(parts)`. -/
def joinChar (sep : Char) : List Str → Str
  | [] => []
  | [s] => s
  | s :: s2 :: ss => s ++ sep :: joinChar sep (s2 :: ss)

/-- `urlparse(s).scheme` is non-empty: a leading alpha character followed by
scheme characters up to a `:`. -/
def schemeRest : Str → Bool
  | [] => false
  | c :: t =>
    if c = ':' then true
    else if c.isAlphanum || c = '+' || c = '-' || c = '.' then schemeRest t
    else false

def hasScheme : Str → Bool
  | [] => false
  | c :: t => c.isAlpha && schemeRest t

/-- Validation errors; all are `ValueError` in the source, distinguished
here by their message. -/
inductive KeyErr where
  | empty
  | traversal
  | absolute
  | scheme
  | notInStore
  deriving DecidableEq, Repr

/-- `validate_uri` from `src/anystore/logic/uri.py`. -/
def validateUri (uri : Str) : Except KeyErr Str :=
  if uri = [] then .error .empty
  else
    let u := unquote (pyStrip uri)
    if u = [] then .error .empty
    else if hasSubstr tra u then .error .traversal
    else .ok u

/-- The `.` segment marker (`CURRENT` in the source). -/
def CURRENT : Str := ['.']

/-- `validate_relative_uri` from `src/anystore/logic/uri.py`. -/
def validateRelativeUri (uri : Str) : Except KeyErr Str :=
  match validateUri uri with
  | .error e => .error e
  | .ok u =>
    if u.head? = some '/' then .error .absolute
    else if hasScheme u then .error .scheme
    else
      let u2 := rstripSlash (unquote u)
      .ok (joinChar '/' ((splitOnChar '/' u2).filter (fun p => p != CURRENT)))

/-- Backend scheme classes, as distinguished by the `isinstance` dispatch in
`src/anystore/store/keys.py` (`key_prefix`, `from_fs_key`). -/
inductive Scheme where
  | local
  | memory
  | redis
  | sql
  | http
  | api
  | generic
  deriving DecidableEq, Repr

/-- `Keys` from `src/anystore/store/keys.py`.  `kp` is the cached
`key_prefix` property, derived once per store from its base URI (the
derivation itself branches on the filesystem class and is characterized
by `Keys.Sane` below rather than re-derived from the URI). -/
structure Keys where
  scheme : Scheme
  kp : Str
  deriving DecidableEq, Repr

/-- `Keys.to_fs_key` from `src/anystore/store/keys.py`. -/
def Keys.toFsKey (K : Keys) (key : Str) : Except KeyErr Str :=
  match validateRelativeUri key with
  | .error e => .error e
  | .ok k =>
    if K.kp ≠ [] then
      if k ≠ [] then .ok (K.kp ++ '/' :: k) else .ok K.kp
    else .ok k

/-- `Keys.from_fs_key` from `src/anystore/store/keys.py`: validate, strip a
leading slash for in-memory backends, then test `key.startswith(key_prefix)`
and return the remainder stripped of surrounding slashes. -/
def Keys.fromFsKey (K : Keys) (key : Str) : Except KeyErr Str :=
  match validateUri key with
  | .error e => .error e
  | .ok k0 =>
    let k := if K.scheme = .memory then lstripSlash k0 else k0
    if K.kp.isPrefixOf k then .ok (stripSlash (k.drop K.kp.length))
    else .error .notInStore

/-- `validate_key` from `src/anystore/core/keys.py`: traversal check before
unquoting, then unquote and strip trailing slashes. -/
def coreValidateKey (key : Str) : Except KeyErr Str :=
  if key = [] then .error .empty
  else if hasSubstr tra key then .error .traversal
  else .ok (rstripSlash (unquote key))

/-- `validate_relative_key` from `src/anystore/core/keys.py`. -/
def coreValidateRelativeKey (key : Str) : Except KeyErr Str :=
  match coreValidateKey key with
  | .error e => .error e
  | .ok k =>
    if k.head? = some '/' then .error .absolute
    else if hasScheme k then .error .scheme
    else
      let k2 := rstripSlash (unquote k)
      .ok (joinChar '/' ((splitOnChar '/' k2).filter (fun p => p != CURRENT)))

/-- `Keys.from_fs_key` from `src/anystore/core/keys.py`: same prefix logic
but no in-memory leading-slash strip and the laxer `validate_key`. -/
def coreFromFsKey (kp : Str) (key : Str) : Except KeyErr Str :=
  match coreValidateKey key with
  | .error e => .error e
  | .ok k =>
    if kp.isPrefixOf k then .ok (stripSlash (k.drop kp.length))
    else .error .notInStore

/-- The key prefixes actually derived by the `key_prefix` property: no
percent-escapes, no traversal marker (also not right before the joining
slash), no surrounding whitespace, and no leading slash for the in-memory
scheme (whose prefix is `_base_path.strip("/")`). -/
def Keys.Sane (K : Keys) : Prop :=
  '%' ∉ K.kp ∧
  hasSubstr tra (K.kp ++ ['/']) = false ∧
  pyStrip K.kp = K.kp ∧
  (K.scheme = .memory → K.kp.head? ≠ some '/')

instance (K : Keys) : Decidable K.Sane := by
  unfold Keys.Sane
  infer_instance

/-! ## Store layer (`src/anystore/store/base.py`)

The fsspec backend is modelled as a flat key-value map from backend keys to
items, as implemented by the bundled flat filesystems (`fs/redis.py`,
`fs/sql.py`): `cat_file`/`open`-for-read raise `FileNotFoundError` for a
missing key, `rm_file` is silent on a missing key, `info` reports an
optional creation timestamp.  Timestamps are integers (seconds);
serialization is modelled in `"raw"` mode (values are byte strings). -/

inductive StoreErr where
  | doesNotExist
  | key (e : KeyErr)
  | notFound
  deriving DecidableEq, Repr

structure Item where
  value : Str
  createdAt : Option Int
  deriving DecidableEq, Repr

structure Backend where
  items : List (Str × Item)
  deriving DecidableEq, Repr

def Backend.lookup (B : Backend) (k : Str) : Option Item :=
  (B.items.find? (fun kv => kv.1 == k)).map (fun kv => kv.2)

def Backend.erase (B : Backend) (k : Str) : Backend :=
  ⟨B.items.filter (fun kv => kv.1 != k)⟩

/-- Store-level configuration used by the claims: the key mapper, the
configured `raise_on_nonexist` default (`bool | None`) and `default_ttl`
(`int | None`), from `StoreModel` in `src/anystore/model/store.py`. -/
structure StoreM where
  keys : Keys
  raiseOnNonexist : Option Bool
  defaultTtl : Option Int
  deriving DecidableEq, Repr

/-- Python truthiness of the `bool | None` flag. -/
def truthy (b : Option Bool) : Bool := b.getD false

/-- Python truthiness of `default_ttl` (`None` and `0` are falsy). -/
def ttlActive (t : Option Int) : Bool :=
  match t with
  | none => false
  | some v => v != 0

/-- `Store._check_ttl` from `src/anystore/store/base.py`.  Returns the
validity verdict together with the possibly updated backend; the
`FileNotFoundError` branch reproduces the source faithfully, including the
re-application of `to_fs_key` to the already-converted key inside the
`DoesNotExist` message interpolation. -/
def StoreM.checkTtl (S : StoreM) (B : Backend) (now : Int) (fsKey : Str)
    (raiseOn : Bool) : Except StoreErr Bool × Backend :=
  if ¬ttlActive S.defaultTtl then (.ok true, B)
  else
    match S.defaultTtl, Backend.lookup B fsKey with
    | none, _ => (.ok true, B)
    | some ttl, some it =>
      match it.createdAt with
      | none => (.ok true, B)
      | some created =>
        if now - created > ttl then (.ok false, Backend.erase B fsKey)
        else (.ok true, B)
    | some _, none =>
      if raiseOn then
        match Keys.toFsKey S.keys fsKey with
        | .error e => (.error (.key e), B)
        | .ok _ => (.error .doesNotExist, B)
      else (.ok false, B)

/-- `Store.get` from `src/anystore/store/base.py`: resolve
`raise_on_nonexist` (explicit argument, else store default), map the key,
run the TTL check (its boolean result is discarded by the source), then
`cat_file`, converting the backend not-found into `DoesNotExist` or `None`. -/
def StoreM.get (S : StoreM) (B : Backend) (now : Int) (key : Str)
    (raiseArg : Option Bool) : Except StoreErr (Option Str) × Backend :=
  let raiseOn := match raiseArg with
    | some b => some b
    | none => S.raiseOnNonexist
  match Keys.toFsKey S.keys key with
  | .error e => (.error (.key e), B)
  | .ok fk =>
    match S.checkTtl B now fk (truthy raiseOn) with
    | (.error e, B2) => (.error e, B2)
    | (.ok _, B2) =>
      match Backend.lookup B2 fk with
      | some it => (.ok (some it.value), B2)
      | none =>
        if truthy raiseOn then (.error .doesNotExist, B2)
        else (.ok none, B2)

/-- `Store.delete` from `src/anystore/store/base.py` over the flat backend
model, whose `rm_file` does not fail on missing keys. -/
def StoreM.delete (S : StoreM) (B : Backend) (key : Str) :
    Except StoreErr Unit × Backend :=
  match Keys.toFsKey S.keys key with
  | .error e => (.error (.key e), B)
  | .ok fk => (.ok (), Backend.erase B fk)

/-- `Store.pop` from `src/anystore/store/base.py`: `get` then `delete`. -/
def StoreM.pop (S : StoreM) (B : Backend) (now : Int) (key : Str)
    (raiseArg : Option Bool) : Except StoreErr (Option Str) × Backend :=
  match S.get B now key raiseArg with
  | (.error e, B2) => (.error e, B2)
  | (.ok v, B2) =>
    match S.delete B2 key with
    | (.error e, B3) => (.error e, B3)
    | (.ok _, B3) => (.ok v, B3)

/-- `Store.exists` from `src/anystore/store/base.py`: TTL check with
`raise_on_nonexist=False`, then the backend existence test. -/
def StoreM.existsKey (S : StoreM) (B : Backend) (now : Int) (key : Str) :
    Except StoreErr Bool × Backend :=
  match Keys.toFsKey S.keys key with
  | .error e => (.error (.key e), B)
  | .ok fk =>
    match S.checkTtl B now fk false with
    | (.error e, B2) => (.error e, B2)
    | (.ok ok, B2) =>
      if ¬ok then (.ok false, B2)
      else (.ok ((Backend.lookup B2 fk).isSome), B2)

/-- Lines produced by `iter_lines` (`src/anystore/logic/io.py`) on a
seekable handle: `readline` segments, each `strip()`ped; the final segment
is yielded only when non-empty. -/
def streamLines (s : Str) : List Str :=
  let segs := splitOnChar '\n' s
  (segs.dropLast ++
    (match segs.getLast? with
     | some l => if l ≠ [] then [l] else []
     | none => [])).map pyStrip

/-- `Store.stream` from `src/anystore/store/base.py`.  Note the source's
suppression test is `raise_on_nonexist is True or self.raise_on_nonexist`,
not the argument-overrides-default resolution used by `get`. -/
def StoreM.stream (S : StoreM) (B : Backend) (key : Str)
    (raiseArg : Option Bool) : Except StoreErr (List Str) :=
  match Keys.toFsKey S.keys key with
  | .error e => .error (.key e)
  | .ok fk =>
    match Backend.lookup B fk with
    | some it => .ok (streamLines it.value)
    | none =>
      if raiseArg = some true || truthy S.raiseOnNonexist then
        .error .doesNotExist
      else .ok []

/-- The listing capabilities `iterate_keys` consumes from the backend
filesystem: an optional lazy `iter_find` (defined only by the local
filesystem subclass in `src/anystore/fs/local.py`), `glob` and `find`,
either of which may signal not-found. -/
structure ListingFs where
  hasIterFind : Bool
  iterFind : Str → Option Str → List Str
  glob : Str → Except Unit (List Str)
  find : Str → Except Unit (List Str)

/-- `Store.iterate_keys` from `src/anystore/store/base.py`: compute the
search base, list via `iter_find`/`glob`/`find` — only the `find` call is
wrapped in `except FileNotFoundError: return` — then reverse-map every
backend key and apply the exclude filter. -/
def StoreM.iterateKeys (S : StoreM) (fs : ListingFs)
    (pfx excl glob : Option Str) : Except StoreErr (List Str) :=
  let baseE : Except StoreErr Str :=
    match pfx with
    | some p =>
      if p ≠ [] then
        match Keys.toFsKey S.keys p with
        | .error e => .error (.key e)
        | .ok b => .ok b
      else .ok S.keys.kp
    | none => .ok S.keys.kp
  match baseE with
  | .error e => .error e
  | .ok base =>
    let keysE : Except StoreErr (List Str) :=
      if fs.hasIterFind then .ok (fs.iterFind base glob)
      else match glob with
        | some g =>
          if g ≠ [] then
            match fs.glob (base ++ '/' :: g) with
            | .error _ => .error .notFound
            | .ok ks => .ok ks
          else
            match fs.find base with
            | .error _ => .ok []
            | .ok ks => .ok ks
        | none =>
          match fs.find base with
          | .error _ => .ok []
          | .ok ks => .ok ks
    match keysE with
    | .error e => .error e
    | .ok keys =>
      match keys.mapM (fun k =>
        match Keys.fromFsKey S.keys k with
        | .error e => (.error (.key e) : Except StoreErr Str)
        | .ok r => .ok r) with
      | .error e => .error e
      | .ok rels =>
        .ok (rels.filter (fun r =>
          match excl with
          | some e => !(e ≠ [] && e.isPrefixOf r)
          | none => true))

/-! ## HTTP byte-range access (`src/anystore/api/util.py`, `routes.py`) -/

/-- `CHUNK_SIZE` from `src/anystore/logic/io.py`. -/
def CHUNK_SIZE : Nat := 5 * 1024 * 1024

/-- Python `int(s)` restricted to non-empty decimal digit strings (the
only shape produced by well-formed `Range` headers). -/
def pyIntNat : Str → Option Nat
  | [] => none
  | s => s.foldlM (fun acc c =>
      if '0' ≤ c ∧ c ≤ '9' then some (acc * 10 + (c.toNat - '0'.toNat))
      else none) 0

/-- Python `s.split(sep, 1)`: the part before the first separator and,
when the separator occurs, the part after it. -/
def splitOnce (sep : Char) : Str → Str × Option Str
  | [] => ([], none)
  | c :: t =>
    if c = sep then ([], some t)
    else
      let (a, b) := splitOnce sep t
      (c :: a, b)

/-- `parse_range` from `src/anystore/api/util.py`: parse a `bytes=` Range
header into an inclusive `(start, end)` pair; `none` models the raised
`ValueError`/`IndexError` for malformed headers. -/
def parseRange (header : Str) (total : Int) : Option (Int × Int) :=
  if ("bytes=".data).isPrefixOf header then
    let spec := header.drop 6
    match spec with
    | '-' :: rest =>
      (pyIntNat rest).map (fun sfx => (max (total - sfx) 0, total - 1))
    | _ =>
      match splitOnce '-' spec with
      | (p1, some p2) =>
        (pyIntNat p1).bind (fun s =>
          if p2 = [] then some ((s : Int), total - 1)
          else (pyIntNat p2).map (fun e => ((s : Int), min (e : Int) (total - 1))))
      | (_, none) => none
  else none

/-- The read loop of `iter_range` from `src/anystore/api/util.py`: from
position `pos`, emit `remaining` bytes in chunks of at most `sz`, stopping
early at end of data.  `fuel` is a termination device only; every
iteration consumes at least one byte of `remaining`, so `fuel = remaining`
is always sufficient. -/
def iterRangeAux (data : Str) (sz : Nat) : Nat → Nat → Nat → Str
  | _, _, 0 => []
  | pos, remaining, fuel + 1 =>
    if remaining = 0 then []
    else
      let chunk := (data.drop pos).take (min sz remaining)
      if chunk = [] then []
      else chunk ++ iterRangeAux data sz (pos + chunk.length)
        (remaining - chunk.length) fuel

/-- `iter_range(fh, start, length, size)`: seek to `start` and yield
`length` bytes. -/
def iterRange (data : Str) (start length sz : Nat) : Str :=
  iterRangeAux data sz start length length

/-- Decimal digits of a natural number (`fuel`-driven, exact). -/
def natReprAux : Nat → Nat → Str
  | 0, _ => []
  | fuel + 1, n =>
    if n < 10 then [Char.ofNat (48 + n)]
    else natReprAux fuel (n / 10) ++ [Char.ofNat (48 + n % 10)]

def natRepr (n : Nat) : Str := natReprAux (n + 1) n

/-- The `Content-Range` header built by the range branch of the `GET`
route in `src/anystore/api/routes.py`: `f"bytes {start}-{end}/{total}"`
(for the non-negative values produced by `parse_range`). -/
def contentRangeHeader (start e total : Int) : Str :=
  "bytes ".data ++ natRepr start.toNat ++ '-' :: natRepr e.toNat ++
    '/' :: natRepr total.toNat

/-- The range branch of the `GET` route in `src/anystore/api/routes.py`:
parse the header against the stored size, compute `length = end - start + 1`
and stream `iter_range(fh, start, length)` with the `Content-Range` header. -/
def rangeResponse (value : Str) (header : Str) : Option (Str × Str) :=
  let total : Int := value.length
  (parseRange header total).map (fun se =>
    let length := se.2 - se.1 + 1
    (iterRange value se.1.toNat length.toNat CHUNK_SIZE,
      contentRangeHeader se.1 se.2 total))

/-! ## Auxiliary lemmas on the string primitives -/

theorem isPrefixOf_true_iff {l1 l2 : Str} :
    l1.isPrefixOf l2 = true ↔ l1 <+: l2 :=
  List.isPrefixOf_iff_prefix

theorem hasSubstr_iff (n s : Str) :
    hasSubstr n s = true ↔ ∃ p q, s = p ++ n ++ q := by
  induction s with
  | nil =>
    simp only [hasSubstr, List.isEmpty_iff]
    constructor
    · intro h; exact ⟨[], [], by simp [h]⟩
    · rintro ⟨p, q, hpq⟩
      rcases List.append_eq_nil.mp (List.append_eq_nil.mp hpq.symm).1 with
        ⟨-, h2⟩
      exact h2
  | cons c t ih =>
    simp only [hasSubstr, Bool.or_eq_true, ih]
    constructor
    · rintro (h | ⟨p, q, rfl⟩)
      · rcases isPrefixOf_true_iff.mp h with ⟨q, hq⟩
        exact ⟨[], q, by simp [hq]⟩
      · exact ⟨c :: p, q, rfl⟩
    · rintro ⟨p, q, hpq⟩
      cases p with
      | nil =>
        left
        exact isPrefixOf_true_iff.mpr ⟨q, by simpa using hpq.symm⟩
      | cons x p =>
        right
        rw [List.cons_append, List.cons_append] at hpq
        exact ⟨p, q, (List.cons.injEq _ _ _ _ ▸ hpq).2⟩

theorem hasSubstr_of_right {n : Str} (c : Char) {t : Str}
    (h : hasSubstr n t = true) : hasSubstr n (c :: t) = true := by
  simp [hasSubstr, h]

theorem hasSubstr_append_right {n s : Str} (p : Str)
    (h : hasSubstr n s = true) : hasSubstr n (p ++ s) = true := by
  induction p with
  | nil => simpa using h
  | cons c t ih => exact hasSubstr_of_right c ih

theorem unquote_cons_ne {c : Char} (t : Str) (h : ¬c = '%') :
    unquote (c :: t) = c :: unquote t := by
  match t with
  | [] => rfl
  | [d] => rfl
  | a :: b :: t2 => rw [unquote, if_neg h]

theorem unquote_of_not_mem {s : Str} (h : '%' ∉ s) : unquote s = s := by
  induction s with
  | nil => rfl
  | cons c t ih =>
    simp only [List.mem_cons, not_or] at h
    rw [unquote_cons_ne t (fun hc => h.1 hc.symm), ih h.2]

theorem unquote_append {p : Str} (s : Str) (h : '%' ∉ p) :
    unquote (p ++ s) = p ++ unquote s := by
  induction p with
  | nil => rfl
  | cons c t ih =>
    simp only [List.mem_cons, not_or] at h
    rw [List.cons_append, unquote_cons_ne _ (fun hc => h.1 hc.symm), ih h.2]
    rfl

theorem splitOnChar_ne_nil (sep : Char) (s : Str) : splitOnChar sep s ≠ [] := by
  cases s with
  | nil => simp [splitOnChar]
  | cons c t =>
    rw [splitOnChar]
    split
    · simp
    · split <;> simp

theorem joinChar_splitOnChar (sep : Char) (s : Str) :
    joinChar sep (splitOnChar sep s) = s := by
  induction s with
  | nil => rfl
  | cons c t ih =>
    rw [splitOnChar]
    split
    · rename_i hc
      subst hc
      rcases h : splitOnChar c t with - | ⟨s, ss⟩
      · exact absurd h (splitOnChar_ne_nil c t)
      · rw [joinChar, ← h, ih]
        rfl
    · rcases h : splitOnChar sep t with - | ⟨s, ss⟩
      · exact absurd h (splitOnChar_ne_nil sep t)
      · rw [h] at ih
        cases ss with
        | nil => rw [joinChar] at ih ⊢; simp [ih]
        | cons s2 ss2 =>
          rw [joinChar] at ih ⊢
          simp only [List.cons_append, List.append_assoc] at ih ⊢
          simp [ih]

theorem length_dropWhile_le (p : Char → Bool) (s : Str) :
    (s.dropWhile p).length ≤ s.length := by
  induction s with
  | nil => simp
  | cons c t ih =>
    rw [List.dropWhile_cons]
    split
    · exact Nat.le_trans ih (by simp)
    · simp

theorem dropWhile_eq_self_of_length {p : Char → Bool} {s : Str}
    (h : (s.dropWhile p).length = s.length) : s.dropWhile p = s := by
  cases s with
  | nil => rfl
  | cons c t =>
    by_cases hp : p c = true
    · rw [List.dropWhile_cons, if_pos hp] at h
      have := length_dropWhile_le p t
      simp only [List.length_cons] at h
      exfalso
      omega
    · rw [List.dropWhile_cons, if_neg hp]

theorem dropWhile_head_false {p : Char → Bool} {s : Str}
    (h : s.dropWhile p = s) {c : Char} (hc : s.head? = some c) : p c = false := by
  cases s with
  | nil => simp at hc
  | cons x t =>
    simp only [List.head?_cons, Option.some.injEq] at hc
    subst hc
    by_cases hp : p x = true
    · rw [List.dropWhile_cons, if_pos hp] at h
      have := length_dropWhile_le p t
      have hlen := congrArg List.length h
      simp only [List.length_cons] at hlen
      exfalso
      omega
    · simpa using hp

theorem dropWhile_eq_self_of_head {p : Char → Bool} {s : Str}
    (h : ∀ c, s.head? = some c → p c = false) : s.dropWhile p = s := by
  cases s with
  | nil => rfl
  | cons x t =>
    rw [List.dropWhile_cons, if_neg]
    simp [h x rfl]

theorem length_rstripAll_le (p : Char → Bool) (s : Str) :
    (rstripAll p s).length ≤ s.length := by
  have := length_dropWhile_le p s.reverse
  simpa [rstripAll] using this

theorem rstripAll_eq_self_of_length {p : Char → Bool} {s : Str}
    (h : (rstripAll p s).length = s.length) : rstripAll p s = s := by
  unfold rstripAll at h ⊢
  simp only [List.length_reverse] at h
  rw [dropWhile_eq_self_of_length (by simpa using h), List.reverse_reverse]

theorem rstripAll_last_false {p : Char → Bool} {s : Str}
    (h : rstripAll p s = s) {c : Char} (hc : s.getLast? = some c) :
    p c = false := by
  have h2 : s.reverse.dropWhile p = s.reverse := by
    have := congrArg List.reverse h
    rwa [rstripAll, List.reverse_reverse] at this
  exact dropWhile_head_false h2 (by rwa [List.head?_reverse])

theorem rstripAll_eq_self_of_last {p : Char → Bool} {s : Str}
    (h : ∀ c, s.getLast? = some c → p c = false) : rstripAll p s = s := by
  unfold rstripAll
  rw [dropWhile_eq_self_of_head (fun c hc => h c (by rwa [List.head?_reverse] at hc)),
    List.reverse_reverse]

theorem length_pyStrip_le (s : Str) : (pyStrip s).length ≤ s.length :=
  Nat.le_trans (length_dropWhile_le _ _) (length_rstripAll_le _ _)

theorem pyStrip_eq_self_of_length {s : Str}
    (h : (pyStrip s).length = s.length) : pyStrip s = s := by
  unfold pyStrip at h ⊢
  have h1 : (rstripAll isPySpace s).length = s.length := by
    have := length_dropWhile_le isPySpace (rstripAll isPySpace s)
    have := length_rstripAll_le isPySpace s
    omega
  rw [rstripAll_eq_self_of_length h1] at h ⊢
  exact dropWhile_eq_self_of_length h

theorem pyStrip_eq_self_of_ends {s : Str}
    (hh : ∀ c, s.head? = some c → isPySpace c = false)
    (hl : ∀ c, s.getLast? = some c → isPySpace c = false) : pyStrip s = s := by
  unfold pyStrip
  rw [rstripAll_eq_self_of_last hl]
  exact dropWhile_eq_self_of_head hh

theorem pyStrip_head_false {s : Str} (h : pyStrip s = s) {c : Char}
    (hc : s.head? = some c) : isPySpace c = false := by
  unfold pyStrip at h
  have h1 : rstripAll isPySpace s = s := by
    have hle1 := length_dropWhile_le isPySpace (rstripAll isPySpace s)
    have hle2 := length_rstripAll_le isPySpace s
    have := congrArg List.length h
    exact rstripAll_eq_self_of_length (by omega)
  rw [h1] at h
  exact dropWhile_head_false h hc

theorem pyStrip_last_false {s : Str} (h : pyStrip s = s) {c : Char}
    (hc : s.getLast? = some c) : isPySpace c = false := by
  unfold pyStrip at h
  have h1 : rstripAll isPySpace s = s := by
    have hle1 := length_dropWhile_le isPySpace (rstripAll isPySpace s)
    have hle2 := length_rstripAll_le isPySpace s
    have := congrArg List.length h
    exact rstripAll_eq_self_of_length (by omega)
  exact rstripAll_last_false h1 hc

theorem unquote_percent_decode {a b : Char} (t : Str) {x y : Nat}
    (hx : hexVal a = some x) (hy : hexVal b = some y) :
    unquote ('%' :: a :: b :: t) = Char.ofNat (16 * x + y) :: unquote t := by
  rw [unquote, if_pos rfl, hx, hy]

theorem unquote_percent_fail {a b : Char} (t : Str)
    (hfail : ∀ x y, hexVal a = some x → hexVal b = some y → False) :
    unquote ('%' :: a :: b :: t) = '%' :: unquote (a :: b :: t) := by
  rw [unquote, if_pos rfl]
  rcases ha : hexVal a with - | x <;> rcases hb : hexVal b with - | y <;>
    first
      | rfl
      | exact ((hfail x y ha hb)).elim

theorem length_unquote_le (s : Str) : (unquote s).length ≤ s.length := by
  induction s using unquote.induct with
  | case1 => simp [unquote]
  | case2 c => simp [unquote]
  | case3 c d => simp [unquote]
  | case4 a b t x y hy hx ih =>
    rw [unquote_percent_decode t hx hy]
    simp only [List.length_cons]
    omega
  | case5 a b t hfail ih =>
    rw [unquote_percent_fail t hfail]
    simp only [List.length_cons] at ih ⊢
    omega
  | case6 c a b t hc ih =>
    rw [unquote_cons_ne _ hc]
    simp only [List.length_cons] at ih ⊢
    omega

theorem unquote_eq_self_of_length {s : Str}
    (h : (unquote s).length = s.length) : unquote s = s := by
  induction s using unquote.induct with
  | case1 => rfl
  | case2 c => rfl
  | case3 c d => rfl
  | case4 a b t x y hy hx ih =>
    rw [unquote_percent_decode t hx hy] at h
    have := length_unquote_le t
    simp only [List.length_cons] at h
    exfalso
    omega
  | case5 a b t hfail ih =>
    rw [unquote_percent_fail t hfail] at h ⊢
    simp only [List.length_cons] at h
    rw [ih (by simp only [List.length_cons]; omega)]
  | case6 c a b t hc ih =>
    rw [unquote_cons_ne _ hc] at h ⊢
    simp only [List.length_cons] at h
    rw [ih (by simp only [List.length_cons]; omega)]

theorem joinChar_cons_length (sep : Char) (a : Str) (t : List Str) :
    (joinChar sep (a :: t)).length =
      a.length + (if t = [] then 0 else 1 + (joinChar sep t).length) := by
  cases t with
  | nil => simp [joinChar]
  | cons b t2 =>
    rw [joinChar, if_neg (show ¬(b :: t2 : List Str) = [] by simp)]
    simp only [List.length_append, List.length_cons]
    omega

theorem length_joinChar_le_cons (sep : Char) (a : Str) (t : List Str) :
    (joinChar sep t).length ≤ (joinChar sep (a :: t)).length := by
  rw [joinChar_cons_length]
  cases t with
  | nil => simp [joinChar]
  | cons b t2 => simp; omega

theorem length_joinChar_filter_le (sep : Char) (p : Str → Bool)
    (l : List Str) :
    (joinChar sep (l.filter p)).length ≤ (joinChar sep l).length := by
  induction l with
  | nil => simp
  | cons a t ih =>
    rw [List.filter_cons]
    split
    · rw [joinChar_cons_length, joinChar_cons_length]
      by_cases ht : t.filter p = []
      · rw [if_pos ht]
        split <;> omega
      · rw [if_neg ht]
        by_cases ht2 : t = []
        · exact absurd (by simp [ht2]) ht
        · rw [if_neg ht2]
          omega
    · exact Nat.le_trans ih (length_joinChar_le_cons sep a t)

theorem hasSubstr_ne_nil {n s : Str} (hn : n ≠ []) (h : hasSubstr n s = true) :
    s ≠ [] := by
  cases s with
  | nil => simp [hasSubstr, List.isEmpty_iff, hn] at h
  | cons c t => simp

theorem hasSubstr_cons_elim {n : Str} {c : Char} {t : Str}
    (h : hasSubstr n (c :: t) = true) :
    n.isPrefixOf (c :: t) = true ∨ hasSubstr n t = true := by
  rw [hasSubstr] at h
  simp only [Bool.or_eq_true] at h
  exact h

theorem isPrefixOf_cons_elim {n0 : Char} {n : Str} {c : Char} {t : Str}
    (h : (n0 :: n).isPrefixOf (c :: t) = true) :
    n0 = c ∧ n.isPrefixOf t = true := by
  simp only [List.isPrefixOf, Bool.and_eq_true, beq_iff_eq] at h
  exact h

theorem hasSubstr_dropWhile {p : Char → Bool} {n : Str} (hn : n ≠ [])
    (hchars : ∀ c ∈ n, p c = false) {s : Str} (h : hasSubstr n s = true) :
    hasSubstr n (s.dropWhile p) = true := by
  induction s with
  | nil => simp [hasSubstr, List.isEmpty_iff, hn] at h
  | cons c t ih =>
    by_cases hp : p c = true
    · rw [List.dropWhile_cons, if_pos hp]
      rcases hasSubstr_cons_elim h with hpre | hin
      · cases n with
        | nil => exact absurd rfl hn
        | cons n0 n2 =>
          rcases isPrefixOf_cons_elim hpre with ⟨rfl, -⟩
          rw [hchars n0 (by simp)] at hp
          exact absurd hp (by simp)
      · exact ih hin
    · rwa [List.dropWhile_cons, if_neg hp]

theorem hasSubstr_reverse_of {n s : Str} (h : hasSubstr n s = true) :
    hasSubstr n.reverse s.reverse = true := by
  rcases (hasSubstr_iff n s).mp h with ⟨p, q, rfl⟩
  refine (hasSubstr_iff _ _).mpr ⟨q.reverse, p.reverse, ?_⟩
  simp

theorem hasSubstr_rstripAll {p : Char → Bool} {n : Str} (hn : n ≠ [])
    (hchars : ∀ c ∈ n, p c = false) {s : Str} (h : hasSubstr n s = true) :
    hasSubstr n (rstripAll p s) = true := by
  have h1 := hasSubstr_reverse_of h
  have h2 := hasSubstr_dropWhile (n := n.reverse) (by simpa using hn)
    (fun c hc => hchars c (List.mem_reverse.mp hc)) h1
  have h3 := hasSubstr_reverse_of h2
  simpa [rstripAll] using h3

theorem hasSubstr_pyStrip {n : Str} (hn : n ≠ [])
    (hchars : ∀ c ∈ n, isPySpace c = false) {s : Str}
    (h : hasSubstr n s = true) : hasSubstr n (pyStrip s) = true :=
  hasSubstr_dropWhile hn hchars (hasSubstr_rstripAll hn hchars h)

theorem hasSubstr_tra_unquote {s : Str} (h : hasSubstr tra s = true) :
    hasSubstr tra (unquote s) = true := by
  induction s using unquote.induct with
  | case1 => simp [hasSubstr, tra] at h
  | case2 c => simp [hasSubstr, tra, List.isPrefixOf] at h
  | case3 c d => simp [hasSubstr, tra, List.isPrefixOf] at h
  | case4 a b t x y hy hx ih =>
    rw [unquote_percent_decode t hx hy]
    rcases hasSubstr_cons_elim h with hpre | hin
    · rw [tra] at hpre
      rcases isPrefixOf_cons_elim hpre with ⟨h1, -⟩
      exact absurd h1 (by decide)
    rcases hasSubstr_cons_elim hin with hpre | hin2
    · rw [tra] at hpre
      rcases isPrefixOf_cons_elim hpre with ⟨rfl, -⟩
      rw [show hexVal '.' = none by decide] at hx
      exact absurd hx (by simp)
    rcases hasSubstr_cons_elim hin2 with hpre | hin3
    · rw [tra] at hpre
      rcases isPrefixOf_cons_elim hpre with ⟨rfl, -⟩
      rw [show hexVal '.' = none by decide] at hy
      exact absurd hy (by simp)
    exact hasSubstr_of_right _ (ih hin3)
  | case5 a b t hfail ih =>
    rw [unquote_percent_fail t hfail]
    rcases hasSubstr_cons_elim h with hpre | hin
    · rw [tra] at hpre
      rcases isPrefixOf_cons_elim hpre with ⟨h1, -⟩
      exact absurd h1 (by decide)
    · exact hasSubstr_of_right _ (ih hin)
  | case6 c a b t hc ih =>
    rw [unquote_cons_ne _ hc]
    rcases hasSubstr_cons_elim h with hpre | hin
    · rw [tra] at hpre
      rcases isPrefixOf_cons_elim hpre with ⟨rfl, hpre2⟩
      rcases isPrefixOf_cons_elim hpre2 with ⟨rfl, hpre3⟩
      rcases isPrefixOf_cons_elim hpre3 with ⟨rfl, -⟩
      rw [unquote_cons_ne _ (by decide), unquote_cons_ne _ (by decide)]
      simp [hasSubstr, tra, List.isPrefixOf]
    · exact hasSubstr_of_right _ (ih hin)

/-- A key that `validate_relative_uri` maps to itself is non-empty, free of
surrounding whitespace, decodable percent-escapes, trailing slashes, a
leading slash and traversal markers. -/
theorem normalized_facts {k : Str} (hk : validateRelativeUri k = .ok k) :
    k ≠ [] ∧ pyStrip k = k ∧ unquote k = k ∧ rstripSlash k = k ∧
      hasSubstr tra k = false ∧ k.head? ≠ some '/' := by
  unfold validateRelativeUri at hk
  cases hv : validateUri k with
  | error e => rw [hv] at hk; exact absurd hk (by simp)
  | ok u =>
    rw [hv] at hk
    dsimp only at hk
    by_cases h1 : u.head? = some '/'
    · rw [if_pos h1] at hk; exact absurd hk (by simp)
    rw [if_neg h1] at hk
    by_cases h2 : hasScheme u = true
    · rw [if_pos h2] at hk; exact absurd hk (by simp)
    rw [if_neg h2] at hk
    have hJ : joinChar '/'
        ((splitOnChar '/' (rstripSlash (unquote u))).filter
          (fun p => p != CURRENT)) = k := by
      simpa using hk
    have hkne : k ≠ [] := by
      intro h
      rw [h] at hv
      simp [validateUri] at hv
    have hv2 : (if unquote (pyStrip k) = [] then (Except.error KeyErr.empty : Except KeyErr Str)
        else if hasSubstr tra (unquote (pyStrip k)) then Except.error KeyErr.traversal
        else Except.ok (unquote (pyStrip k))) = Except.ok u := by
      rw [← hv]
      simp [validateUri, hkne]
    by_cases hu0 : unquote (pyStrip k) = []
    · rw [if_pos hu0] at hv2; exact absurd hv2 (by simp)
    rw [if_neg hu0] at hv2
    by_cases htr : hasSubstr tra (unquote (pyStrip k)) = true
    · rw [if_pos htr] at hv2; exact absurd hv2 (by simp)
    rw [if_neg htr] at hv2
    have hu : u = unquote (pyStrip k) := by
      have := hv2
      simp only [Except.ok.injEq] at this
      exact this.symm
    have len1 : k.length ≤ (rstripSlash (unquote u)).length := by
      have hle := length_joinChar_filter_le '/' (fun p => p != CURRENT)
        (splitOnChar '/' (rstripSlash (unquote u)))
      rw [joinChar_splitOnChar, hJ] at hle
      exact hle
    have len2 : (rstripSlash (unquote u)).length ≤ (unquote u).length :=
      length_rstripAll_le _ _
    have len3 : (unquote u).length ≤ u.length := length_unquote_le u
    have len4 : u.length = (unquote (pyStrip k)).length := by rw [hu]
    have len5 : (unquote (pyStrip k)).length ≤ (pyStrip k).length :=
      length_unquote_le _
    have len6 : (pyStrip k).length ≤ k.length := length_pyStrip_le k
    have e5 : pyStrip k = k := pyStrip_eq_self_of_length (by omega)
    have e4 : unquote (pyStrip k) = pyStrip k :=
      unquote_eq_self_of_length (by omega)
    have euk : u = k := by rw [hu, e4, e5]
    subst euk
    have e3 : unquote u = u := unquote_eq_self_of_length (by omega)
    have e2 : rstripSlash u = u := by
      have hlen : (rstripSlash (unquote u)).length = (unquote u).length := by
        omega
      rw [e3] at hlen
      unfold rstripSlash at hlen ⊢
      exact rstripAll_eq_self_of_length hlen
    refine ⟨hkne, e5, e3, e2, ?_, h1⟩
    rw [e4, e5] at htr
    simpa using htr

/-- `validate_uri` rejects any input containing `"../"`: the marker
survives whitespace stripping and unquoting. -/
theorem validateUri_traversal {k : Str} (h : hasSubstr tra k = true) :
    validateUri k = .error .traversal := by
  have hkne : k ≠ [] := hasSubstr_ne_nil (by decide) h
  have h2 : hasSubstr tra (unquote (pyStrip k)) = true :=
    hasSubstr_tra_unquote (hasSubstr_pyStrip (by decide) (by decide) h)
  have hne : unquote (pyStrip k) ≠ [] := hasSubstr_ne_nil (by decide) h2
  simp [validateUri, hkne, hne, h2]

theorem validateRelativeUri_traversal {k : Str} (h : hasSubstr tra k = true) :
    validateRelativeUri k = .error .traversal := by
  unfold validateRelativeUri
  rw [validateUri_traversal h]

theorem toFsKey_traversal (K : Keys) {k : Str} (h : hasSubstr tra k = true) :
    K.toFsKey k = .error .traversal := by
  unfold Keys.toFsKey
  rw [validateRelativeUri_traversal h]

/-- If neither `P ++ "/"` nor `k` contains `"../"`, neither does the joined
backend key `P ++ "/" ++ k`: the needle cannot straddle the joining slash. -/
theorem hasSubstr_tra_sandwich {P k : Str}
    (hP : hasSubstr tra (P ++ ['/']) = false)
    (hk : hasSubstr tra k = false) :
    hasSubstr tra (P ++ '/' :: k) = false := by
  by_contra hcon
  rw [Bool.not_eq_false] at hcon
  rcases (hasSubstr_iff tra (P ++ '/' :: k)).mp hcon with ⟨pre, post, heq⟩
  have heq2 : (P ++ ['/']) ++ k = pre ++ (tra ++ post) := by
    simpa [List.append_assoc] using heq
  rcases List.append_eq_append_iff.mp heq2 with ⟨a2, hpre, hk2⟩ | ⟨c2, hA, htp⟩
  · have hbad : hasSubstr tra k = true :=
      (hasSubstr_iff tra k).mpr ⟨a2, post, by simpa using hk2⟩
    rw [hk] at hbad
    exact Bool.false_ne_true hbad
  rcases List.append_eq_append_iff.mp htp.symm with
    ⟨a3, hc2, hpost⟩ | ⟨c3, hc2, hpost⟩
  · rcases c2 with - | ⟨x1, c2⟩
    · have ha3 : a3 = tra := by simpa using hc2.symm
      have hbad : hasSubstr tra k = true :=
        (hasSubstr_iff tra k).mpr ⟨[], post, by simp [hpost, ha3]⟩
      rw [hk] at hbad
      exact Bool.false_ne_true hbad
    rcases c2 with - | ⟨x2, c2⟩
    · rw [tra] at hc2
      simp only [List.cons_append, List.nil_append] at hc2
      injection hc2 with hx1 htl
      have hlast : (P ++ ['/']).getLast? = some '/' := List.getLast?_concat _
      rw [hA, List.getLast?_concat] at hlast
      have hx1s : x1 = '/' := by simpa using hlast
      rw [← hx1] at hx1s
      exact absurd hx1s (by decide)
    rcases c2 with - | ⟨x3, c2⟩
    · rw [tra] at hc2
      simp only [List.cons_append, List.nil_append] at hc2
      injection hc2 with hx1 htl
      injection htl with hx2 htl2
      have hlast : (P ++ ['/']).getLast? = some '/' := List.getLast?_concat _
      rw [hA, show pre ++ [x1, x2] = (pre ++ [x1]) ++ [x2] by simp,
        List.getLast?_concat] at hlast
      have hx2s : x2 = '/' := by simpa using hlast
      rw [← hx2] at hx2s
      exact absurd hx2s (by decide)
    · rw [tra] at hc2
      simp only [List.cons_append, List.nil_append] at hc2
      injection hc2 with hx1 htl
      injection htl with hx2 htl2
      injection htl2 with hx3 htl3
      have hc2nil : c2 = [] := by
        rcases c2 with - | ⟨y, c2⟩
        · rfl
        · have := congrArg List.length htl3
          simp at this
      subst hc2nil
      rw [← hx1, ← hx2, ← hx3] at hA
      have hbad : hasSubstr tra (P ++ ['/']) = true := by
        refine (hasSubstr_iff tra (P ++ ['/'])).mpr ⟨pre, [], ?_⟩
        rw [hA, tra]
        simp
      rw [hP] at hbad
      exact Bool.false_ne_true hbad
  · have hbad : hasSubstr tra (P ++ ['/']) = true := by
      refine (hasSubstr_iff tra (P ++ ['/'])).mpr ⟨pre, c3, ?_⟩
      rw [hA, hc2, List.append_assoc]
    rw [hP] at hbad
    exact Bool.false_ne_true hbad

/-- `validate_uri` is the identity on keys already in normalized form. -/
theorem validateUri_of_normalized {k : Str} (hne : k ≠ [])
    (hstrip : pyStrip k = k) (hunq : unquote k = k)
    (htra : hasSubstr tra k = false) : validateUri k = .ok k := by
  simp [validateUri, hne, hstrip, hunq, htra]

theorem stripSlash_slash_cons {k : Str} (hne : k ≠ [])
    (hrst : rstripSlash k = k) (hhead : k.head? ≠ some '/') :
    stripSlash ('/' :: k) = k := by
  unfold stripSlash
  have h1 : rstripSlash ('/' :: k) = '/' :: k := by
    unfold rstripSlash
    apply rstripAll_eq_self_of_last
    intro c hc
    rw [show ('/' :: k : Str) = ['/'] ++ k from rfl,
      List.getLast?_append_of_ne_nil _ hne] at hc
    exact rstripAll_last_false hrst hc
  rw [h1]
  unfold lstripSlash
  rw [List.dropWhile_cons, if_pos (by simp)]
  apply dropWhile_eq_self_of_head
  intro c hc
  simp only [decide_eq_false_iff_not]
  intro hc2
  rw [hc2] at hc
  exact hhead hc

theorem stripSlash_of_normalized {k : Str}
    (hrst : rstripSlash k = k) (hhead : k.head? ≠ some '/') :
    stripSlash k = k := by
  unfold stripSlash
  rw [hrst]
  apply dropWhile_eq_self_of_head
  intro c hc
  simp only [decide_eq_false_iff_not]
  intro hc2
  rw [hc2] at hc
  exact hhead hc

theorem nil_isPrefixOf (l : Str) : ([] : Str).isPrefixOf l = true := by
  cases l <;> rfl

/-- Round trip on normalized keys: mapping to the backend key and back is
the identity, for every scheme and sane prefix. -/
theorem fromFsKey_toFsKey {K : Keys} {k fk : Str} (hS : K.Sane)
    (hk : validateRelativeUri k = .ok k) (hfk : K.toFsKey k = .ok fk) :
    K.fromFsKey fk = .ok k := by
  obtain ⟨hP1, hP2, hP3, hP4⟩ := hS
  obtain ⟨hne, hstrip, hunq, hrst, htra, hhead⟩ := normalized_facts hk
  unfold Keys.toFsKey at hfk
  rw [hk] at hfk
  dsimp only at hfk
  by_cases hkp : K.kp = []
  · rw [if_neg (by simp [hkp])] at hfk
    have hfk2 : fk = k := by
      have := hfk
      simp only [Except.ok.injEq] at this
      exact this.symm
    subst hfk2
    unfold Keys.fromFsKey
    rw [validateUri_of_normalized hne hstrip hunq htra]
    dsimp only
    have hmem : (if K.scheme = .memory then lstripSlash fk else fk) = fk := by
      split
      · apply dropWhile_eq_self_of_head
        intro c hc
        simp only [decide_eq_false_iff_not]
        intro hcc
        rw [hcc] at hc
        exact hhead hc
      · rfl
    rw [hmem, hkp]
    rw [if_pos (nil_isPrefixOf fk)]
    simp only [List.length_nil, List.drop_zero]
    rw [stripSlash_of_normalized hrst hhead]
  · rw [if_pos hkp, if_pos hne] at hfk
    have hfk2 : fk = K.kp ++ '/' :: k := by
      have := hfk
      simp only [Except.ok.injEq] at this
      exact this.symm
    subst hfk2
    have hassoc : K.kp ++ '/' :: k = (K.kp ++ ['/']) ++ k := by simp
    have hmemP : '%' ∉ K.kp ++ ['/'] := by
      simp only [List.mem_append, List.mem_singleton, not_or]
      exact ⟨hP1, by decide⟩
    have hhd : (K.kp ++ '/' :: k).head? = K.kp.head? :=
      List.head?_append_of_ne_nil _ hkp
    have hlst : (K.kp ++ '/' :: k).getLast? = k.getLast? := by
      rw [List.getLast?_append_of_ne_nil _ (by simp : ('/' :: k : Str) ≠ []),
        show ('/' :: k : Str) = ['/'] ++ k from rfl,
        List.getLast?_append_of_ne_nil _ hne]
    have hstrip2 : pyStrip (K.kp ++ '/' :: k) = K.kp ++ '/' :: k := by
      apply pyStrip_eq_self_of_ends
      · intro c hc
        rw [hhd] at hc
        exact pyStrip_head_false hP3 hc
      · intro c hc
        rw [hlst] at hc
        exact pyStrip_last_false hstrip hc
    have hunq2 : unquote (K.kp ++ '/' :: k) = K.kp ++ '/' :: k := by
      rw [hassoc, unquote_append k hmemP, hunq]
    have htra2 : hasSubstr tra (K.kp ++ '/' :: k) = false :=
      hasSubstr_tra_sandwich hP2 htra
    unfold Keys.fromFsKey
    rw [validateUri_of_normalized (by simp [hkp]) hstrip2 hunq2 htra2]
    dsimp only
    have hmem : (if K.scheme = .memory then lstripSlash (K.kp ++ '/' :: k)
        else K.kp ++ '/' :: k) = K.kp ++ '/' :: k := by
      split
      · rename_i hsch
        apply dropWhile_eq_self_of_head
        intro c hc
        simp only [decide_eq_false_iff_not]
        intro hcc
        rw [hhd] at hc
        rw [hcc] at hc
        exact hP4 hsch hc
      · rfl
    rw [hmem]
    rw [if_pos (isPrefixOf_true_iff.mpr ⟨'/' :: k, rfl⟩)]
    rw [List.drop_left]
    rw [stripSlash_slash_cons hne hrst hhead]

/-- The two parallel mapper implementations agree on every non-memory
scheme for backend keys free of percent-escapes, surrounding whitespace
and trailing slashes. -/
theorem core_store_fromFsKey_agree {sch : Scheme} (hsch : sch ≠ .memory)
    (P k : Str) (hpct : '%' ∉ k) (hws : pyStrip k = k)
    (hsl : rstripSlash k = k) :
    Keys.fromFsKey ⟨sch, P⟩ k = coreFromFsKey P k := by
  have hunq : unquote k = k := unquote_of_not_mem hpct
  by_cases hk0 : k = []
  · subst hk0
    unfold Keys.fromFsKey coreFromFsKey coreValidateKey validateUri
    simp
  by_cases htr : hasSubstr tra k = true
  · unfold Keys.fromFsKey coreFromFsKey coreValidateKey
    rw [validateUri_traversal htr, if_neg hk0, if_pos htr]
  · have hv : validateUri k = .ok k :=
      validateUri_of_normalized hk0 hws hunq (by simpa using htr)
    have hcv : coreValidateKey k = .ok k := by
      unfold coreValidateKey
      rw [if_neg hk0, if_neg htr, hunq, hsl]
    unfold Keys.fromFsKey coreFromFsKey
    rw [hv, hcv]
    dsimp only
    rw [if_neg hsch]

/-- The `iter_range` loop yields exactly the requested slice of the data
(truncated at end-of-data), for any positive chunk size. -/
theorem iterRangeAux_eq (data : Str) (sz : Nat) (hsz : 0 < sz) :
    ∀ fuel pos remaining, remaining ≤ fuel →
      iterRangeAux data sz pos remaining fuel =
        (data.drop pos).take remaining := by
  intro fuel
  induction fuel with
  | zero =>
    intro pos r hr
    have : r = 0 := by omega
    subst this
    simp [iterRangeAux]
  | succ n ih =>
    intro pos r hr
    rw [iterRangeAux]
    by_cases hr0 : r = 0
    · subst hr0
      simp
    rw [if_neg hr0]
    by_cases hc : (data.drop pos).take (min sz r) = []
    · rw [if_pos hc]
      have hxs : data.drop pos = [] := by
        rcases hd : data.drop pos with - | ⟨x, xs⟩
        · rfl
        · rw [hd] at hc
          rw [List.take_cons (by omega : 0 < min sz r)] at hc
          exact absurd hc (by simp)
      rw [hxs]
      simp
    · rw [if_neg hc]
      have hlen : ((data.drop pos).take (min sz r)).length =
          min (min sz r) (data.drop pos).length := by
        rw [List.length_take]
      have hpos : 0 < ((data.drop pos).take (min sz r)).length := by
        rcases hd : (data.drop pos).take (min sz r) with - | ⟨x, xs⟩
        · exact absurd hd hc
        · simp
      rw [ih _ _ (by omega), ← List.drop_drop]
      by_cases hcase : min sz r ≤ (data.drop pos).length
      · have hl2 : ((data.drop pos).take (min sz r)).length = min sz r := by
          omega
        have e : min sz r + (r - min sz r) = r := by omega
        rw [hl2]
        conv_rhs => rw [← e, List.take_add]
      · have hxs : (data.drop pos).length ≤ min sz r := by omega
        rw [List.take_of_length_le hxs]
        rw [List.take_of_length_le (l := data.drop pos) (by omega)]
        simp
        omega

/-! ## Claims -/

/-- C1 (amended): for every backend scheme and sane key prefix, and for
every relative key already in normalized form (the fixed points of
validation, which include keys with spaces and multiple path segments but
exclude keys with decodable URL-escapes such as `foo%20bar`), mapping to
the backend key and back is the identity. -/
theorem c1_round_trip_normalized (K : Keys) (k fk : Str) (hS : K.Sane)
    (hk : validateRelativeUri k = .ok k) (hfk : K.toFsKey k = .ok fk) :
    K.fromFsKey fk = .ok k :=
  fromFsKey_toFsKey hS hk hfk

/-- C1 counterexample: the URL-encoded key `"foo%20bar"` passes validation
but does not round-trip to itself: `to_fs_key` decodes it to
`"/data/foo bar"` and `from_fs_key` returns `"foo bar" ≠ "foo%20bar"`. -/
theorem c1_url_encoded_key_counterexample :
    validateRelativeUri "foo%20bar".data = .ok "foo bar".data ∧
    Keys.toFsKey ⟨.local, "/data".data⟩ "foo%20bar".data =
      .ok "/data/foo bar".data ∧
    Keys.fromFsKey ⟨.local, "/data".data⟩ "/data/foo bar".data =
      .ok "foo bar".data ∧
    "foo bar".data ≠ "foo%20bar".data := by
  refine ⟨by decide, by decide, by decide, by decide⟩

/-- C1 witness: a concrete round trip through a local store prefix for a
multi-segment key containing a space. -/
theorem c1_round_trip_normalized_witness :
    Keys.fromFsKey ⟨.local, "/data".data⟩ "/data/foo bar/baz".data =
      .ok "foo bar/baz".data :=
  c1_round_trip_normalized ⟨.local, "/data".data⟩ "foo bar/baz".data
    "/data/foo bar/baz".data (by decide) (by decide) (by decide)

/-- C2: `get` and `pop` resolve suppression as explicit argument over
store default, but `stream` tests `raise_on_nonexist is True or
self.raise_on_nonexist`, so on a store configured with
`raise_on_nonexist=True` an explicit `raise_on_nonexist=False` still
raises `DoesNotExist` for a missing key instead of yielding nothing. -/
theorem c2_stream_ignores_explicit_false :
    StoreM.get ⟨⟨.sql, []⟩, some true, none⟩ ⟨[]⟩ 0 "missing".data
      (some false) = (.ok none, ⟨[]⟩) ∧
    StoreM.pop ⟨⟨.sql, []⟩, some true, none⟩ ⟨[]⟩ 0 "missing".data
      (some false) = (.ok none, ⟨[]⟩) ∧
    StoreM.stream ⟨⟨.sql, []⟩, some true, none⟩ ⟨[]⟩ "missing".data
      (some false) = .error .doesNotExist ∧
    StoreM.stream ⟨⟨.sql, []⟩, some false, none⟩ ⟨[]⟩ "missing".data
      (some false) = .ok [] := by
  refine ⟨by decide, by decide, by decide, by decide⟩

/-- C3: with a `default_ttl` configured, `get` on a missing key of a
path-like store raises the absolute-key `ValueError` from the
`to_fs_key(fs_key)` re-application inside `_check_ttl`'s `DoesNotExist`
message, not `DoesNotExist`; for a flat (SQL-like) store it raises
`DoesNotExist`; with suppression it returns the null sentinel. -/
theorem c3_ttl_missing_key_wrong_error :
    StoreM.get ⟨⟨.local, "/data".data⟩, some true, some 30⟩ ⟨[]⟩ 0
      "foo".data none = (.error (.key .absolute), ⟨[]⟩) ∧
    StoreM.get ⟨⟨.sql, []⟩, some true, some 30⟩ ⟨[]⟩ 0
      "foo".data none = (.error .doesNotExist, ⟨[]⟩) ∧
    StoreM.get ⟨⟨.local, "/data".data⟩, some true, some 30⟩ ⟨[]⟩ 0
      "foo".data (some false) = (.ok none, ⟨[]⟩) := by
  refine ⟨by decide, by decide, by decide⟩

/-- C4: the TTL check reports valid with no `default_ttl` or no creation
timestamp; it deletes and reports expired exactly when
`now - created_at > default_ttl`, in which case `exists` is false;
otherwise it leaves the item in place. -/
theorem c4_check_ttl_spec (S : StoreM) (B : Backend) (now : Int) (fk : Str)
    (r : Bool) :
    (S.defaultTtl = none → S.checkTtl B now fk r = (.ok true, B)) ∧
    (∀ ttl it, S.defaultTtl = some ttl → ttl ≠ 0 →
      Backend.lookup B fk = some it → it.createdAt = none →
      S.checkTtl B now fk r = (.ok true, B)) ∧
    (∀ ttl it t, S.defaultTtl = some ttl → ttl ≠ 0 →
      Backend.lookup B fk = some it → it.createdAt = some t →
      now - t > ttl →
      S.checkTtl B now fk r = (.ok false, Backend.erase B fk)) ∧
    (∀ ttl it t, S.defaultTtl = some ttl → ttl ≠ 0 →
      Backend.lookup B fk = some it → it.createdAt = some t →
      ¬now - t > ttl →
      S.checkTtl B now fk r = (.ok true, B)) ∧
    (∀ key ttl it t, Keys.toFsKey S.keys key = .ok fk →
      S.defaultTtl = some ttl → ttl ≠ 0 →
      Backend.lookup B fk = some it → it.createdAt = some t →
      now - t > ttl →
      S.existsKey B now key = (.ok false, Backend.erase B fk)) := by
  refine ⟨?_, ?_, ?_, ?_, ?_⟩
  · intro httl
    unfold StoreM.checkTtl
    rw [httl]
    simp [ttlActive]
  · intro ttl it httl h0 hlook hcr
    unfold StoreM.checkTtl
    rw [httl]
    simp only [ttlActive, bne_iff_ne, ne_eq, h0, not_false_eq_true,
      not_true_eq_false, if_false]
    rw [hlook]
    dsimp only
    rw [hcr]
  · intro ttl it t httl h0 hlook hcr hexp
    unfold StoreM.checkTtl
    rw [httl]
    simp only [ttlActive, bne_iff_ne, ne_eq, h0, not_false_eq_true,
      not_true_eq_false, if_false]
    rw [hlook]
    dsimp only
    rw [hcr]
    dsimp only
    rw [if_pos hexp]
  · intro ttl it t httl h0 hlook hcr hexp
    unfold StoreM.checkTtl
    rw [httl]
    simp only [ttlActive, bne_iff_ne, ne_eq, h0, not_false_eq_true,
      not_true_eq_false, if_false]
    rw [hlook]
    dsimp only
    rw [hcr]
    dsimp only
    rw [if_neg hexp]
  · intro key ttl it t hkey httl h0 hlook hcr hexp
    unfold StoreM.existsKey
    rw [hkey]
    dsimp only
    have hck : S.checkTtl B now fk false = (.ok false, Backend.erase B fk) := by
      unfold StoreM.checkTtl
      rw [httl]
      simp only [ttlActive, bne_iff_ne, ne_eq, h0, not_false_eq_true,
        not_true_eq_false, if_false]
      rw [hlook]
      dsimp only
      rw [hcr]
      dsimp only
      rw [if_pos hexp]
    rw [hck]
    dsimp only
    rw [if_pos (by simp : ¬false = true)]

/-- C4 witness: a store with `default_ttl = 5` holding one item created at
time 0 queried at time 10: the check expires and deletes it, and `exists`
reports false. -/
theorem c4_check_ttl_spec_witness :
    StoreM.checkTtl ⟨⟨.sql, []⟩, some true, some 5⟩
      ⟨[("k".data, ⟨"v".data, some 0⟩)]⟩ 10 "k".data true =
      (.ok false, ⟨[]⟩) ∧
    StoreM.existsKey ⟨⟨.sql, []⟩, some true, some 5⟩
      ⟨[("k".data, ⟨"v".data, some 0⟩)]⟩ 10 "k".data =
      (.ok false, ⟨[]⟩) := by
  constructor
  · have h := (c4_check_ttl_spec ⟨⟨.sql, []⟩, some true, some 5⟩
      ⟨[("k".data, ⟨"v".data, some 0⟩)]⟩ 10 "k".data true).2.2.1
      5 ⟨"v".data, some 0⟩ 0 rfl (by decide) (by decide) rfl (by decide)
    rw [h]
    decide
  · have h := (c4_check_ttl_spec ⟨⟨.sql, []⟩, some true, some 5⟩
      ⟨[("k".data, ⟨"v".data, some 0⟩)]⟩ 10 "k".data true).2.2.2.2
      "k".data 5 ⟨"v".data, some 0⟩ 0 (by decide) rfl (by decide)
      (by decide) rfl (by decide)
    rw [h]
    decide

/-- C5: a key containing the literal `"../"` is rejected by `to_fs_key`
with the traversal error for every scheme and prefix, and store
operations propagate that error without touching the backend state. -/
theorem c5_traversal_rejected :
    (∀ (K : Keys) (k : Str), hasSubstr tra k = true →
      K.toFsKey k = .error .traversal) ∧
    (∀ (S : StoreM) (B : Backend) (now : Int) (k : Str) (arg : Option Bool),
      hasSubstr tra k = true →
      StoreM.get S B now k arg = (.error (.key .traversal), B)) ∧
    (∀ (S : StoreM) (B : Backend) (k : Str), hasSubstr tra k = true →
      StoreM.delete S B k = (.error (.key .traversal), B)) := by
  refine ⟨fun K k h => toFsKey_traversal K h, ?_, ?_⟩
  · intro S B now k arg h
    unfold StoreM.get
    rw [toFsKey_traversal S.keys h]
  · intro S B k h
    unfold StoreM.delete
    rw [toFsKey_traversal S.keys h]

/-- C5 witness: the two keys named by the spec, plus a store-level `get`
whose backend is returned unchanged. -/
theorem c5_traversal_rejected_witness :
    Keys.toFsKey ⟨.local, "/data".data⟩ "a/../b".data =
      .error .traversal ∧
    Keys.toFsKey ⟨.sql, []⟩ "../x".data = .error .traversal ∧
    StoreM.get ⟨⟨.local, "/data".data⟩, some true, none⟩ ⟨[]⟩ 0
      "a/../b".data none = (.error (.key .traversal), ⟨[]⟩) :=
  ⟨c5_traversal_rejected.1 ⟨.local, "/data".data⟩ "a/../b".data (by decide),
   c5_traversal_rejected.1 ⟨.sql, []⟩ "../x".data (by decide),
   c5_traversal_rejected.2.1 ⟨⟨.local, "/data".data⟩, some true, none⟩ ⟨[]⟩
     0 "a/../b".data none (by decide)⟩

/-- C6 counterexample: against a backend whose `glob` raises not-found for
a missing search base, glob-based listing propagates the error while plain
recursive listing returns empty — `iterate_keys` only guards the `find`
call with `except FileNotFoundError`. -/
theorem c6_glob_not_found_propagates :
    StoreM.iterateKeys ⟨⟨.sql, []⟩, none, none⟩
      ⟨false, fun _ _ => [], fun _ => .error (), fun _ => .error ()⟩
      none none (some "*.json".data) = .error .notFound ∧
    StoreM.iterateKeys ⟨⟨.sql, []⟩, none, none⟩
      ⟨false, fun _ _ => [], fun _ => .error (), fun _ => .error ()⟩
      none none none = .ok [] := by
  exact ⟨rfl, rfl⟩

/-- C6 (amended): when the search base is missing, plain recursive listing
always yields an empty sequence (its not-found error is caught), and every
other combination of prefix and glob yields an empty sequence provided the
backend's `glob`/`iter_find` return empty rather than raising on a missing
base (as the bundled fsspec implementations do). -/
theorem c6_missing_base_yields_empty (S : StoreM) (fs : ListingFs)
    (pfx excl glob : Option Str)
    (hpfx : ∀ p, pfx = some p → p ≠ [] →
      ∃ b, Keys.toFsKey S.keys p = .ok b)
    (hIter : ∀ b g, fs.iterFind b g = [])
    (hGlob : ∀ q, fs.glob q = .ok [])
    (hFind : ∀ b, fs.find b = .error () ∨ fs.find b = .ok []) :
    StoreM.iterateKeys S fs pfx excl glob = .ok [] := by
  unfold StoreM.iterateKeys
  have hkeys : ∀ base : Str,
      (match (if fs.hasIterFind then
          (.ok (fs.iterFind base glob) : Except StoreErr (List Str))
        else match glob with
          | some g =>
            if g ≠ [] then
              match fs.glob (base ++ '/' :: g) with
              | .error _ => .error .notFound
              | .ok ks => .ok ks
            else
              match fs.find base with
              | .error _ => .ok []
              | .ok ks => .ok ks
          | none =>
            match fs.find base with
            | .error _ => .ok []
            | .ok ks => .ok ks) with
       | .error e => (.error e : Except StoreErr (List Str))
       | .ok keys =>
        match keys.mapM (fun k =>
          match Keys.fromFsKey S.keys k with
          | .error e => (.error (.key e) : Except StoreErr Str)
          | .ok r => .ok r) with
        | .error e => .error e
        | .ok rels =>
          .ok (rels.filter (fun r =>
            match excl with
            | some e => !(e ≠ [] && e.isPrefixOf r)
            | none => true))) = .ok [] := by
    intro base
    by_cases hif : fs.hasIterFind = true
    · rw [if_pos hif, hIter base glob]
      rfl
    · rw [if_neg hif]
      rcases glob with - | g
      · rcases hFind base with hf | hf <;> rw [hf] <;> rfl
      · dsimp only
        by_cases hg : g = []
        · rw [if_neg (by simp [hg])]
          rcases hFind base with hf | hf <;> rw [hf] <;> rfl
        · rw [if_pos hg, hGlob (base ++ '/' :: g)]
          rfl
  rcases pfx with - | p
  · exact hkeys S.keys.kp
  · dsimp only
    by_cases hp : p = []
    · rw [if_neg (by simp [hp])]
      exact hkeys S.keys.kp
    · rw [if_pos hp]
      rcases hpfx p rfl hp with ⟨b, hb⟩
      rw [hb]
      exact hkeys b

/-- C6 witness: a glob listing over an empty flat backend with a prefix. -/
theorem c6_missing_base_yields_empty_witness :
    StoreM.iterateKeys ⟨⟨.sql, []⟩, none, none⟩
      ⟨false, fun _ _ => [], fun _ => .ok [], fun _ => .ok []⟩
      (some "foo".data) none (some "*.json".data) = .ok [] :=
  c6_missing_base_yields_empty ⟨⟨.sql, []⟩, none, none⟩
    ⟨false, fun _ _ => [], fun _ => .ok [], fun _ => .ok []⟩
    (some "foo".data) none (some "*.json".data)
    (by intro p hp hne; cases hp; exact ⟨"foo".data, by decide⟩)
    (fun b g => rfl) (fun q => rfl) (fun b => Or.inr rfl)

/-- C7: `parse_range` returns the inclusive pairs `(2,6)`, `(7,9)` and
`(3,9)` for the three header shapes at `total = 10`; `iter_range` emits
exactly the requested slice from the requested offset; and the range
branch of the `GET` route returns the exact bytes with the exact
`Content-Range` header for the 10-byte value `"abcdefghij"`. -/
theorem c7_range_read_exactness :
    (∀ (data : Str) (s l sz : Nat), 0 < sz →
      iterRange data s l sz = (data.drop s).take l) ∧
    parseRange "bytes=2-6".data 10 = some (2, 6) ∧
    parseRange "bytes=-3".data 10 = some (7, 9) ∧
    parseRange "bytes=3-".data 10 = some (3, 9) ∧
    rangeResponse "abcdefghij".data "bytes=2-6".data =
      some ("cdefg".data, "bytes 2-6/10".data) ∧
    rangeResponse "abcdefghij".data "bytes=-3".data =
      some ("hij".data, "bytes 7-9/10".data) ∧
    rangeResponse "abcdefghij".data "bytes=3-".data =
      some ("defghij".data, "bytes 3-9/10".data) := by
  refine ⟨?_, by decide, by decide, by decide, by decide, by decide,
    by decide⟩
  intro data s l sz hsz
  exact iterRangeAux_eq data sz hsz l s l (Nat.le_refl l)

/-- C7 witness: the general slice lemma applied at the spec's concrete
range (5 bytes from offset 2 of the 10-byte value). -/
theorem c7_range_read_exactness_witness :
    iterRange "abcdefghij".data 2 5 CHUNK_SIZE =
      (("abcdefghij".data).drop 2).take 5 :=
  c7_range_read_exactness.1 "abcdefghij".data 2 5 CHUNK_SIZE (by decide)

/-- C8: `to_fs_key(".")` returns exactly the key prefix: the prefix itself
for stores with a non-empty prefix, and the empty string for SQL-like
stores whose prefix is empty. -/
theorem c8_dot_sentinel (K : Keys) : K.toFsKey CURRENT = .ok K.kp := by
  unfold Keys.toFsKey
  rw [show validateRelativeUri CURRENT = .ok [] from by decide]
  dsimp only
  by_cases hkp : K.kp = []
  · rw [if_neg (by simp [hkp]), hkp]
  · rw [if_pos hkp, if_neg (by simp)]

/-- C9: `from_fs_key` membership is a plain string-prefix test: with
prefix `"/data"`, the foreign backend key `"/database/x"` is accepted and
mapped to `"base/x"` even though the prefix does not end at a path
separator there. -/
theorem c9_plain_prefix_membership :
    Keys.fromFsKey ⟨.local, "/data".data⟩ "/database/x".data =
      .ok "base/x".data ∧
    ("/data".data).isPrefixOf "/database/x".data = true ∧
    ("/data/".data).isPrefixOf "/database/x".data = false := by
  refine ⟨by decide, by decide, by decide⟩

/-- C10 counterexample: the two parallel `from_fs_key` implementations
disagree on in-memory backends: for prefix `"ns"` and backend key
`"/ns/foo"`, the store-layer mapper strips the leading slash and maps to
`"foo"`, while the core mapper rejects with the membership error. -/
theorem c10_memory_mapper_divergence :
    Keys.fromFsKey ⟨.memory, "ns".data⟩ "/ns/foo".data = .ok "foo".data ∧
    coreFromFsKey "ns".data "/ns/foo".data = .error .notInStore := by
  refine ⟨by decide, by decide⟩

/-- C10 (amended): outside the in-memory scheme, and on backend keys free
of percent-escapes, surrounding whitespace and trailing slashes (where the
two validators coincide), the two mapper implementations return the same
result or fail with the same error. -/
theorem c10_mappers_agree_plain_keys (sch : Scheme) (P k : Str)
    (hsch : sch ≠ .memory) (hpct : '%' ∉ k) (hws : pyStrip k = k)
    (hsl : rstripSlash k = k) :
    Keys.fromFsKey ⟨sch, P⟩ k = coreFromFsKey P k :=
  core_store_fromFsKey_agree hsch P k hpct hws hsl

/-- C10 witness: both mappers agree on a local-store backend key. -/
theorem c10_mappers_agree_plain_keys_witness :
    Keys.fromFsKey ⟨.local, "/data".data⟩ "/data/foo".data =
      coreFromFsKey "/data".data "/data/foo".data :=
  c10_mappers_agree_plain_keys .local "/data".data "/data/foo".data
    (by decide) (by decide) (by decide) (by decide)

end Anystore
